import Mathlib

/-!
Verification of the transcript-reconstruction core of
`app.py` (`parse_channel_transcript`, lines 22-69, together with the
`CHANNEL_LABELS` table on line 19).

The engine's JSON result object is modelled by typed structures; times are
rationals (the Python code parses the engine's decimal strings with `float`,
and every comparison performed is exact on decimal inputs, so `ℚ` is a
faithful carrier).  Fallible dictionary / index accesses are modelled with
`Option` and `Except`.
-/

set_option allowUnsafeReducibility true
attribute [local semireducible] Rat.sub Rat.add Rat.mul Rat.inv Rat.div Rat.ofScientific

namespace VoiceAnalysis

/-- Decidable equality for `Except`, needed to evaluate the parser's
result type on concrete inputs. -/
instance {ε α : Type} [DecidableEq ε] [DecidableEq α] : DecidableEq (Except ε α) := fun x y =>
  match x, y with
  | .error a, .error b =>
    if h : a = b then .isTrue (h ▸ rfl)
    else .isFalse (fun hh => h (Except.error.inj hh))
  | .ok a, .ok b =>
    if h : a = b then .isTrue (h ▸ rfl)
    else .isFalse (fun hh => h (Except.ok.inj hh))
  | .error _, .ok _ => .isFalse (fun hh => Except.noConfusion hh)
  | .ok _, .error _ => .isFalse (fun hh => Except.noConfusion hh)

/-- One token of a channel's stream: an item of `channel.items` in the
engine result.  A `pronunciation` item carries `start_time`, `end_time`
(parsed by `float(...)` in the source) and `alternatives[0].content`;
a `punctuation` item carries only `alternatives[0].content`. -/
inductive Item where
  | pronunciation (start_time end_time : ℚ) (content : String)
  | punctuation (content : String)
deriving DecidableEq, Repr

/-- One entry of `results.channel_labels.channels`.  The source computes
`int(channel.channel_label.replace(ch_, ))` (line 32); engine labels have
the form `ch_N`, so the parsed integer index `N` is stored directly as
`channel_label`. -/
structure Channel where
  channel_label : Int
  items : List Item
deriving DecidableEq, Repr

/-- The `results` object of the engine result: `channel_labels.channels`
(with `none` modelling an absent `channel_labels` key, line 24's chained
`.get` defaults) and the list of `transcripts[k].transcript` strings. -/
structure Results where
  channel_labels : Option (List Channel)
  transcripts : List String
deriving DecidableEq, Repr

/-- The whole engine result object passed to `parse_channel_transcript`;
`none` models an absent `results` key. -/
structure TranscriptData where
  results : Option Results
deriving DecidableEq, Repr

/-- Line 19: `CHANNEL_LABELS`, the fixed two-entry index-to-role table,
modelled as an association list. -/
def CHANNEL_LABELS : List (Int × String) := [(0, "AI Agent"), (1, "Customer")]

/-- Line 33: `CHANNEL_LABELS.get(ch_label, "Ch" + str(ch_label))` —
dictionary lookup with the generic fallback label. -/
def channelLabelFor (ch_label : Int) : String :=
  (CHANNEL_LABELS.lookup ch_label).getD ("Ch" ++ toString ch_label)

/-- One entry of the segmenter's accumulator `buf` (line 53):
a dictionary with keys `start` and `word`. -/
structure BufEntry where
  start : ℚ
  word : String
deriving DecidableEq, Repr

/-- The mutable state threaded through the second per-channel loop
(lines 44-46): the `utterances` list, the accumulator `buf` and
`last_end` (initially `0.0`). -/
structure SegState where
  utterances : List (ℚ × String × String)
  buf : List BufEntry
  last_end : ℚ
deriving DecidableEq, Repr

/-- Line 56: `buf[-1].word += content` — rebuild the buffer with the
content appended to the final entry's word (no separator). -/
def appendToLast (content : String) : List BufEntry → List BufEntry
  | [] => []
  | [b] => [⟨b.start, b.word ++ content⟩]
  | b :: b' :: rest => b :: appendToLast content (b' :: rest)

/-- Lines 51-52 and 59-60: flush a non-empty buffer into the utterance
`(buf[0].start, words joined by single spaces, label)` and reset it;
an empty buffer is left alone.  `last_end` is not touched. -/
def flushBuf (label : String) (st : SegState) : SegState :=
  match st.buf with
  | [] => st
  | b :: rest =>
    { st with
      utterances :=
        st.utterances ++
          [(b.start, String.intercalate " " ((b :: rest).map BufEntry.word), label)]
      buf := [] }

/-- Lines 47-56: one iteration of the segmentation loop.  A word token
first flushes the buffer when it is non-empty and the silence gap
`start_time - last_end` strictly exceeds 1.5 s, then joins the buffer and
updates `last_end`; a punctuation token fuses onto the last buffered word
when the buffer is non-empty and is dropped otherwise. -/
def segStep (label : String) (st : SegState) (item : Item) : SegState :=
  match item with
  | .pronunciation start_time end_time content =>
    let st' :=
      if st.buf ≠ [] ∧ start_time - st.last_end > 3/2 then flushBuf label st else st
    { st' with buf := st'.buf ++ [⟨start_time, content⟩], last_end := end_time }
  | .punctuation content =>
    if st.buf ≠ [] then { st with buf := appendToLast content st.buf } else st

/-- Lines 44-60: the utterance segmenter for one channel — run the loop
from the initial state `([], [], 0.0)` and flush the remaining buffer. -/
def segmentChannel (label : String) (items : List Item) : List (ℚ × String × String) :=
  (flushBuf label (items.foldl (segStep label) ⟨[], [], 0⟩)).utterances

/-- Line 40 analogue of `appendToLast` for the first loop's plain word
list: `current_words[-1] += content`. -/
def appendToLastStr (content : String) : List String → List String
  | [] => []
  | [w] => [w ++ content]
  | w :: w' :: rest => w :: appendToLastStr content (w' :: rest)

/-- Lines 36-40: one iteration of the first per-channel loop, which
accumulates `current_words`. -/
def currentWordsStep (cw : List String) (item : Item) : List String :=
  match item with
  | .pronunciation _ _ content => cw ++ [content]
  | .punctuation content => if cw ≠ [] then appendToLastStr content cw else cw

/-- Lines 35-40: the first per-channel loop.  Its result is never read by
the rest of the function. -/
def current_words (items : List Item) : List String :=
  items.foldl currentWordsStep []

/-- Lines 32-60 for one channel: resolve the role label, run the (dead)
first loop, and segment the channel's items. -/
def channelSegments (channel : Channel) : List (ℚ × String × String) :=
  let label := channelLabelFor channel.channel_label
  let _cw := current_words channel.items
  segmentChannel label channel.items

/-- The same per-channel processing with the dead first loop
(lines 35-40) removed. -/
def channelSegmentsNoFirstLoop (channel : Channel) : List (ℚ × String × String) :=
  segmentChannel (channelLabelFor channel.channel_label) channel.items

/-- Lines 30-62: `segments.extend(...)` across the channel loop. -/
def collectSegments (chs : List Channel) : List (ℚ × String × String) :=
  chs.foldl (fun segs ch => segs ++ channelSegments ch) []

/-- `collectSegments` built from the variant without the dead loop. -/
def collectSegmentsNoFirstLoop (chs : List Channel) : List (ℚ × String × String) :=
  chs.foldl (fun segs ch => segs ++ channelSegmentsNoFirstLoop ch) []

/-- Line 24: `transcript_data.get(results, {}).get(channel_labels, {})
.get(channels, [])` — every missing key defaults to the empty list. -/
def channelsOf (td : TranscriptData) : List Channel :=
  match td.results with
  | none => []
  | some r => r.channel_labels.getD []

/-- Line 68: render one segment tuple `(start, text, label)` as the line
`label ++ ": " ++ text`. -/
def renderLine (seg : ℚ × String × String) : String :=
  seg.2.2 ++ ": " ++ seg.2.1

/-- The comparison used by line 65's `segments.sort(key=lambda x: x[0])`:
ordering by start time only. -/
def segLE (a b : ℚ × String × String) : Prop := a.1 ≤ b.1

instance : DecidableRel segLE := fun a b => inferInstanceAs (Decidable (a.1 ≤ b.1))

instance : IsTotal (ℚ × String × String) segLE := ⟨fun a b => le_total a.1 b.1⟩

instance : IsTrans (ℚ × String × String) segLE := ⟨fun _ _ _ h h' => le_trans h h'⟩

/-- Lines 22-69: `parse_channel_transcript`.  Python's `list.sort` is a
stable sort, modelled by `List.insertionSort` with the `segLE` key order
(insertion sort with a reflexive total key order is stable).  The two
`raise`-paths of line 27 (missing `results` key, empty `transcripts`
array) are modelled as `Except.error`. -/
def parse_channel_transcript (transcript_data : TranscriptData) :
    Except String (String × Bool) :=
  let items := channelsOf transcript_data
  if items = [] then
    match transcript_data.results with
    | none => .error "KeyError: results"
    | some r =>
      match r.transcripts with
      | [] => .error "IndexError: transcripts"
      | plain :: _ => .ok (plain, false)
  else
    let segments := collectSegments items
    let sorted := List.insertionSort segLE segments
    .ok (String.intercalate "\n" (sorted.map renderLine), true)

/-- `parse_channel_transcript` with the dead first loop (lines 35-40)
removed from the per-channel processing; everything else identical. -/
def parse_channel_transcript_noFirstLoop (transcript_data : TranscriptData) :
    Except String (String × Bool) :=
  let items := channelsOf transcript_data
  if items = [] then
    match transcript_data.results with
    | none => .error "KeyError: results"
    | some r =>
      match r.transcripts with
      | [] => .error "IndexError: transcripts"
      | plain :: _ => .ok (plain, false)
  else
    let segments := collectSegmentsNoFirstLoop items
    let sorted := List.insertionSort segLE segments
    .ok (String.intercalate "\n" (sorted.map renderLine), true)

/-! Reference vocabulary for stating the segmenter's properties: word
tokens with their timing, streams of words interleaved with trailing
punctuation, and the grouping of a word list at silence gaps. -/

/-- The data of one word token. -/
structure Word where
  start : ℚ
  stop : ℚ
  content : String
deriving DecidableEq, Repr

/-- The item a word token denotes. -/
def wordItem (w : Word) : Item :=
  .pronunciation w.start w.stop w.content

/-- Concatenation of a list of punctuation texts, in order. -/
def concatAll : List String → String
  | [] => ""
  | s :: ss => s ++ concatAll ss

/-- Fuse a word with its trailing punctuation tokens: the punctuation
texts are appended directly to the word's text, no separator. -/
def fuseWord (g : Word × List String) : Word :=
  ⟨g.1.start, g.1.stop, g.1.content ++ concatAll g.2⟩

/-- The token stream denoted by a list of words, each followed by its
trailing punctuation tokens. -/
def itemsOfGroups : List (Word × List String) → List Item
  | [] => []
  | (w, ps) :: gs => wordItem w :: (ps.map Item.punctuation ++ itemsOfGroups gs)

/-- Reference grouping, accumulator form: `cur` is the (non-empty) group
under construction and `prevEnd` the end time of its last word; a new
group starts exactly when the silence gap strictly exceeds `thr`. -/
def gapGroupsAux (thr : ℚ) (cur : List Word) (prevEnd : ℚ) : List Word → List (List Word)
  | [] => [cur]
  | w :: ws =>
    if w.start - prevEnd > thr then cur :: gapGroupsAux thr [w] w.stop ws
    else gapGroupsAux thr (cur ++ [w]) w.stop ws

/-- Reference grouping of a word list at silence gaps strictly
exceeding `thr`. -/
def gapGroups (thr : ℚ) : List Word → List (List Word)
  | [] => []
  | w :: ws => gapGroupsAux thr [w] w.stop ws

/-- The utterance tuple a non-empty word group denotes. -/
def renderGroup (label : String) (g : List Word) : ℚ × String × String :=
  ((g.headD ⟨0, 0, ""⟩).start, String.intercalate " " (g.map Word.content), label)

/-- The buffer contents corresponding to a word group. -/
def bufOf (g : List Word) : List BufEntry :=
  g.map fun w => ⟨w.start, w.content⟩

/-! Auxiliary lemmas about the segmenter's loop. -/

theorem appendToLast_concat (p : String) (bs : List BufEntry) (b : BufEntry) :
    appendToLast p (bs ++ [b]) = bs ++ [⟨b.start, b.word ++ p⟩] := by
  induction bs with
  | nil => rfl
  | cons x bs ih =>
    cases h : bs ++ [b] with
    | nil => exact absurd h (by simp)
    | cons y ys =>
      have h1 : appendToLast p ((x :: bs) ++ [b]) = x :: appendToLast p (bs ++ [b]) := by
        rw [List.cons_append, h]
        rfl
      rw [h1, ih]
      rfl

theorem punctFold (label : String) (ps : List String) :
    ∀ (st : SegState) (bs : List BufEntry) (b : BufEntry), st.buf = bs ++ [b] →
      (ps.map Item.punctuation).foldl (segStep label) st
        = { st with buf := bs ++ [⟨b.start, b.word ++ concatAll ps⟩] } := by
  induction ps with
  | nil =>
    intro st bs b h
    cases st with
    | mk u bf le => cases b with
      | mk s w => simp_all [concatAll]
  | cons p ps ih =>
    intro st bs b h
    have hne : st.buf ≠ [] := by simp [h]
    have hstep : segStep label st (.punctuation p)
        = { st with buf := bs ++ [⟨b.start, b.word ++ p⟩] } := by
      simp [segStep, hne, h, appendToLast_concat]
    calc ((p :: ps).map Item.punctuation).foldl (segStep label) st
        = (ps.map Item.punctuation).foldl (segStep label)
            { st with buf := bs ++ [⟨b.start, b.word ++ p⟩] } := by
          simp [List.foldl_cons, hstep]
      _ = { st with buf := bs ++ [⟨b.start, b.word ++ concatAll (p :: ps)⟩] } := by
          rw [ih _ bs ⟨b.start, b.word ++ p⟩ rfl]
          simp [concatAll, String.append_assoc]

theorem punctFold_empty (label : String) (ps : List String) :
    ∀ (st : SegState), st.buf = [] →
      (ps.map Item.punctuation).foldl (segStep label) st = st := by
  induction ps with
  | nil => intro st _; rfl
  | cons p ps ih =>
    intro st h
    have : segStep label st (.punctuation p) = st := by simp [segStep, h]
    simp [List.foldl_cons, this, ih st h]

theorem bufOf_words (g : List Word) :
    (bufOf g).map BufEntry.word = g.map Word.content := by
  rw [bufOf, List.map_map]
  rfl

theorem flushBuf_bufOf (label : String) (utts : List (ℚ × String × String))
    (w : Word) (g' : List Word) (le : ℚ) :
    flushBuf label ⟨utts, bufOf (w :: g'), le⟩
      = ⟨utts ++ [renderGroup label (w :: g')], [], le⟩ := by
  show SegState.mk
      (utts ++ [(w.start, String.intercalate " " ((bufOf (w :: g')).map BufEntry.word), label)])
      [] le = _
  rw [bufOf_words]
  rfl

theorem bufOf_append (l₁ l₂ : List Word) :
    bufOf (l₁ ++ l₂) = bufOf l₁ ++ bufOf l₂ := by
  simp [bufOf]

theorem segStep_word_split (label : String) (utts : List (ℚ × String × String))
    (w0 : Word) (g' : List Word) (le : ℚ) (w : Word) (hs : w.start - le > 3/2) :
    segStep label ⟨utts, bufOf (w0 :: g'), le⟩ (wordItem w)
      = ⟨utts ++ [renderGroup label (w0 :: g')], bufOf [w], w.stop⟩ := by
  have hb : bufOf (w0 :: g') ≠ [] := by simp [bufOf]
  simp only [wordItem, segStep]
  rw [if_pos ⟨hb, hs⟩, flushBuf_bufOf]
  rfl

theorem segStep_word_nosplit (label : String) (utts : List (ℚ × String × String))
    (w0 : Word) (g' : List Word) (le : ℚ) (w : Word) (hs : ¬ w.start - le > 3/2) :
    segStep label ⟨utts, bufOf (w0 :: g'), le⟩ (wordItem w)
      = ⟨utts, bufOf ((w0 :: g') ++ [w]), w.stop⟩ := by
  simp only [wordItem, segStep]
  rw [if_neg (by exact fun h => hs h.2), bufOf_append]
  rfl

theorem segStep_word_empty (label : String) (utts : List (ℚ × String × String))
    (le : ℚ) (w : Word) :
    segStep label ⟨utts, [], le⟩ (wordItem w) = ⟨utts, bufOf [w], w.stop⟩ := by
  simp only [wordItem, segStep]
  rw [if_neg (by simp)]
  rfl

theorem punctFold_bufOf (label : String) (ps : List String)
    (utts : List (ℚ × String × String)) (h : List Word) (w : Word) (le : ℚ) :
    (ps.map Item.punctuation).foldl (segStep label) ⟨utts, bufOf (h ++ [w]), le⟩
      = ⟨utts, bufOf (h ++ [fuseWord (w, ps)]), le⟩ := by
  rw [punctFold label ps _ (bufOf h) ⟨w.start, w.content⟩ (by simp [bufOf])]
  simp [bufOf, fuseWord]

theorem segFold_mixed (label : String) :
    ∀ (gs : List (Word × List String)) (utts : List (ℚ × String × String))
      (w0 : Word) (g' : List Word) (le : ℚ),
      (flushBuf label ((itemsOfGroups gs).foldl (segStep label)
          ⟨utts, bufOf (w0 :: g'), le⟩)).utterances
        = utts ++ (gapGroupsAux (3/2) (w0 :: g') le (gs.map fuseWord)).map (renderGroup label) := by
  intro gs
  induction gs with
  | nil =>
    intro utts w0 g' le
    rw [itemsOfGroups, List.foldl_nil, flushBuf_bufOf]
    simp [gapGroupsAux]
  | cons wp gs ih =>
    obtain ⟨w, ps⟩ := wp
    intro utts w0 g' le
    rw [itemsOfGroups, List.foldl_cons, List.foldl_append]
    have hstop : (fuseWord (w, ps)).stop = w.stop := rfl
    by_cases hs : w.start - le > 3/2
    · rw [segStep_word_split label utts w0 g' le w hs]
      have hp := punctFold_bufOf label ps (utts ++ [renderGroup label (w0 :: g')]) [] w w.stop
      rw [List.nil_append] at hp
      rw [hp, List.nil_append, ih]
      have hs' : (fuseWord (w, ps)).start - le > 3/2 := hs
      simp only [List.map_cons, gapGroupsAux, if_pos hs', hstop]
      simp [List.append_assoc]
    · rw [segStep_word_nosplit label utts w0 g' le w hs]
      have hp := punctFold_bufOf label ps utts (w0 :: g') w w.stop
      rw [hp, List.cons_append, ih]
      have hs' : ¬ (fuseWord (w, ps)).start - le > 3/2 := hs
      simp only [List.map_cons, gapGroupsAux, if_neg hs', hstop, List.cons_append]

theorem segmentChannel_mixed (label : String) (p₀ : List String)
    (gs : List (Word × List String)) :
    segmentChannel label (p₀.map Item.punctuation ++ itemsOfGroups gs)
      = (gapGroups (3/2) (gs.map fuseWord)).map (renderGroup label) := by
  rw [segmentChannel, List.foldl_append, punctFold_empty label p₀ _ rfl]
  cases gs with
  | nil => rfl
  | cons wp gs =>
    obtain ⟨w, ps⟩ := wp
    rw [itemsOfGroups, List.foldl_cons, List.foldl_append, segStep_word_empty]
    have hp := punctFold_bufOf label ps [] [] w w.stop
    rw [List.nil_append] at hp
    rw [hp, List.nil_append, segFold_mixed]
    have hstop : (fuseWord (w, ps)).stop = w.stop := rfl
    simp only [List.map_cons, gapGroups, hstop, List.nil_append]

/-- Every item stream decomposes as leading punctuation tokens followed
by word tokens each trailed by their punctuation tokens. -/
theorem items_decompose (items : List Item) :
    ∃ (p₀ : List String) (gs : List (Word × List String)),
      items = p₀.map Item.punctuation ++ itemsOfGroups gs := by
  induction items with
  | nil => exact ⟨[], [], rfl⟩
  | cons it t ih =>
    obtain ⟨p₀, gs, h⟩ := ih
    cases it with
    | punctuation c => exact ⟨c :: p₀, gs, by simp [h]⟩
    | pronunciation s e c =>
      exact ⟨[], (⟨s, e, c⟩, p₀) :: gs, by simp [itemsOfGroups, h, wordItem]⟩

theorem itemsOfGroups_words (ws : List Word) :
    itemsOfGroups (ws.map fun w => (w, [])) = ws.map wordItem := by
  induction ws with
  | nil => rfl
  | cons w ws ih => simp [itemsOfGroups, ih]

theorem fuseWord_nil (w : Word) : fuseWord (w, []) = w := by
  cases w
  simp [fuseWord, concatAll]

theorem segmentChannel_words (label : String) (ws : List Word) :
    segmentChannel label (ws.map wordItem)
      = (gapGroups (3/2) ws).map (renderGroup label) := by
  have h := segmentChannel_mixed label [] (ws.map fun w => (w, []))
  rw [List.map_nil, List.nil_append, itemsOfGroups_words, List.map_map] at h
  have hid : (fuseWord ∘ fun w => (w, [])) = id := funext fun w => fuseWord_nil w
  rw [hid, List.map_id] at h
  exact h

/-! Properties of the reference grouping `gapGroups`. -/

theorem gapGroupsAux_join (thr : ℚ) :
    ∀ (ws cur : List Word) (le : ℚ), (gapGroupsAux thr cur le ws).flatten = cur ++ ws := by
  intro ws
  induction ws with
  | nil => intro cur le; simp [gapGroupsAux]
  | cons w ws ih =>
    intro cur le
    rw [gapGroupsAux]
    by_cases hs : w.start - le > thr
    · rw [if_pos hs]
      simp [ih]
    · rw [if_neg hs, ih]
      simp

theorem gapGroups_join (thr : ℚ) (ws : List Word) :
    (gapGroups thr ws).flatten = ws := by
  cases ws with
  | nil => rfl
  | cons w ws => rw [gapGroups, gapGroupsAux_join]; rfl

theorem gapGroupsAux_ne_nil (thr : ℚ) :
    ∀ (ws cur : List Word) (le : ℚ), cur ≠ [] →
      ∀ g ∈ gapGroupsAux thr cur le ws, g ≠ [] := by
  intro ws
  induction ws with
  | nil =>
    intro cur le hcur g hg
    rw [gapGroupsAux] at hg
    simp at hg
    exact hg ▸ hcur
  | cons w ws ih =>
    intro cur le hcur g hg
    rw [gapGroupsAux] at hg
    by_cases hs : w.start - le > thr
    · rw [if_pos hs] at hg
      rcases List.mem_cons.mp hg with h | h
      · exact h ▸ hcur
      · exact ih [w] w.stop (by simp) g h
    · rw [if_neg hs] at hg
      exact ih (cur ++ [w]) w.stop (by simp) g hg

theorem gapGroupsAux_chain (thr : ℚ) :
    ∀ (ws cur : List Word) (le : ℚ),
      (∀ x ∈ cur.getLast?, x.stop = le) →
      cur.Chain' (fun a b => b.start - a.stop ≤ thr) →
      ∀ g ∈ gapGroupsAux thr cur le ws, g.Chain' (fun a b => b.start - a.stop ≤ thr) := by
  intro ws
  induction ws with
  | nil =>
    intro cur le _ hchain g hg
    rw [gapGroupsAux] at hg
    simp at hg
    exact hg ▸ hchain
  | cons w ws ih =>
    intro cur le hlast hchain g hg
    rw [gapGroupsAux] at hg
    by_cases hs : w.start - le > thr
    · rw [if_pos hs] at hg
      rcases List.mem_cons.mp hg with h | h
      · exact h ▸ hchain
      · exact ih [w] w.stop (by simp) (List.chain'_singleton w) g h
    · rw [if_neg hs] at hg
      refine ih (cur ++ [w]) w.stop (by simp) ?_ g hg
      rw [List.chain'_append]
      refine ⟨hchain, List.chain'_singleton w, ?_⟩
      intro x hx y hy
      simp at hy
      subst hy
      rw [hlast x hx]
      exact not_lt.mp hs

/-- The first group produced by `gapGroupsAux` extends the accumulator. -/
theorem gapGroupsAux_head (thr : ℚ) :
    ∀ (ws cur : List Word) (le : ℚ),
      ∃ t rest, gapGroupsAux thr cur le ws = (cur ++ t) :: rest := by
  intro ws
  induction ws with
  | nil => intro cur le; exact ⟨[], [], by simp [gapGroupsAux]⟩
  | cons w ws ih =>
    intro cur le
    rw [gapGroupsAux]
    by_cases hs : w.start - le > thr
    · rw [if_pos hs]
      exact ⟨[], gapGroupsAux thr [w] w.stop ws, by simp⟩
    · rw [if_neg hs]
      obtain ⟨t, rest, h⟩ := ih (cur ++ [w]) w.stop
      exact ⟨w :: t, rest, by rw [h]; simp⟩

/-- Consecutive groups have a silence gap strictly above `thr` at their
boundary. -/
theorem gapGroupsAux_boundaries (thr : ℚ) :
    ∀ (ws cur : List Word) (le : ℚ),
      (∀ x ∈ cur.getLast?, x.stop = le) →
      (gapGroupsAux thr cur le ws).Chain'
        (fun g₁ g₂ => ∀ a ∈ g₁.getLast?, ∀ b ∈ g₂.head?, thr < b.start - a.stop) := by
  intro ws
  induction ws with
  | nil =>
    intro cur le _
    rw [gapGroupsAux]
    exact List.chain'_singleton cur
  | cons w ws ih =>
    intro cur le hlast
    rw [gapGroupsAux]
    by_cases hs : w.start - le > thr
    · rw [if_pos hs, List.chain'_cons']
      constructor
      · intro g hg a ha b hb
        obtain ⟨t, rest, hh⟩ := gapGroupsAux_head thr ws [w] w.stop
        rw [hh] at hg
        simp only [List.head?_cons, Option.mem_some_iff] at hg
        subst hg
        simp only [List.cons_append, List.head?_cons, Option.mem_some_iff] at hb
        subst hb
        rw [hlast a ha]
        exact hs
      · exact ih [w] w.stop (by simp)
    · rw [if_neg hs]
      exact ih (cur ++ [w]) w.stop (by simp)

theorem gapGroups_boundaries (thr : ℚ) (ws : List Word) :
    (gapGroups thr ws).Chain'
      (fun g₁ g₂ => ∀ a ∈ g₁.getLast?, ∀ b ∈ g₂.head?, thr < b.start - a.stop) := by
  cases ws with
  | nil => exact List.chain'_nil
  | cons w ws => exact gapGroupsAux_boundaries thr ws [w] w.stop (by simp)

theorem gapGroups_ne_nil (thr : ℚ) (ws : List Word) :
    ∀ g ∈ gapGroups thr ws, g ≠ [] := by
  cases ws with
  | nil => intro g hg; simp [gapGroups] at hg
  | cons w ws => exact gapGroupsAux_ne_nil thr ws [w] w.stop (by simp)

theorem gapGroups_chain (thr : ℚ) (ws : List Word) :
    ∀ g ∈ gapGroups thr ws, g.Chain' (fun a b => b.start - a.stop ≤ thr) := by
  cases ws with
  | nil => intro g hg; simp [gapGroups] at hg
  | cons w ws =>
    exact gapGroupsAux_chain thr ws [w] w.stop (by simp) (List.chain'_singleton w)

/-- The end time of the last word of `ws`, defaulting to `le`. -/
def lastStop (le : ℚ) (ws : List Word) : ℚ :=
  (ws.getLast?.map Word.stop).getD le

theorem lastStop_cons (le : ℚ) (w : Word) (ws : List Word) :
    lastStop le (w :: ws) = lastStop w.stop ws := by
  cases ws with
  | nil => simp [lastStop]
  | cons x t =>
    cases h : (x :: t).getLast? with
    | none => exact absurd h (by simp)
    | some a => simp [lastStop, List.getLast?_cons_cons, h]

theorem lastStop_concat (le : ℚ) (l : List Word) (y : Word) :
    lastStop le (l ++ [y]) = y.stop := by
  simp [lastStop, List.getLast?_concat]

theorem gapGroupsAux_split (thr : ℚ) :
    ∀ (ws₁ cur : List Word) (le : ℚ) (z : Word) (ys : List Word),
      thr < z.start - lastStop le ws₁ →
      gapGroupsAux thr cur le (ws₁ ++ z :: ys)
        = gapGroupsAux thr cur le ws₁ ++ gapGroups thr (z :: ys) := by
  intro ws₁
  induction ws₁ with
  | nil =>
    intro cur le z ys hgap
    simp only [lastStop] at hgap
    simp at hgap
    rw [List.nil_append, gapGroupsAux, gapGroupsAux, if_pos hgap]
    rfl
  | cons w ws₁ ih =>
    intro cur le z ys hgap
    rw [lastStop_cons] at hgap
    rw [List.cons_append, gapGroupsAux, gapGroupsAux]
    by_cases hs : w.start - le > thr
    · rw [if_pos hs, if_pos hs, ih [w] w.stop z ys hgap]
      rfl
    · rw [if_neg hs, if_neg hs, ih (cur ++ [w]) w.stop z ys hgap]

theorem gapGroups_split (thr : ℚ) (xs : List Word) (y z : Word) (ys : List Word)
    (hgap : thr < z.start - y.stop) :
    gapGroups thr (xs ++ y :: z :: ys)
      = gapGroups thr (xs ++ [y]) ++ gapGroups thr (z :: ys) := by
  cases xs with
  | nil =>
    rw [List.nil_append, List.nil_append, gapGroups, gapGroupsAux, if_pos hgap]
    rfl
  | cons x xs =>
    rw [List.cons_append, gapGroups, List.cons_append, gapGroups]
    have h1 : xs ++ y :: z :: ys = (xs ++ [y]) ++ z :: ys := by simp
    rw [h1, gapGroupsAux_split thr (xs ++ [y]) [x] x.stop z ys
      (by rw [lastStop_concat]; exact hgap)]

theorem gapGroups_cons_ne_nil (thr : ℚ) (w : Word) (ws : List Word) :
    gapGroups thr (w :: ws) ≠ [] := by
  rw [gapGroups]
  obtain ⟨t, rest, h⟩ := gapGroupsAux_head thr ws [w] w.stop
  rw [h]
  simp

theorem gapGroupsAux_single (thr : ℚ) :
    ∀ (ws cur : List Word) (le : ℚ),
      (∀ b ∈ ws.head?, b.start - le ≤ thr) →
      ws.Chain' (fun a b => b.start - a.stop ≤ thr) →
      gapGroupsAux thr cur le ws = [cur ++ ws] := by
  intro ws
  induction ws with
  | nil => intro cur le _ _; simp [gapGroupsAux]
  | cons w ws ih =>
    intro cur le hhead hchain
    have hw : w.start - le ≤ thr := hhead w (by simp)
    rw [gapGroupsAux, if_neg (not_lt.mpr hw),
      ih (cur ++ [w]) w.stop (List.chain'_cons'.mp hchain).1 (List.chain'_cons'.mp hchain).2]
    simp

theorem gapGroups_single (thr : ℚ) (w : Word) (ws : List Word)
    (hchain : (w :: ws).Chain' (fun a b => b.start - a.stop ≤ thr)) :
    gapGroups thr (w :: ws) = [w :: ws] := by
  rw [gapGroups, gapGroupsAux_single thr ws [w] w.stop
    (List.chain'_cons'.mp hchain).1 (List.chain'_cons'.mp hchain).2]
  rfl

/-! Helper lemmas for the assembler. -/

theorem parse_channels_empty (td : TranscriptData) (hch : channelsOf td = []) :
    parse_channel_transcript td
      = match td.results with
        | none => Except.error "KeyError: results"
        | some r =>
          match r.transcripts with
          | [] => Except.error "IndexError: transcripts"
          | plain :: _ => Except.ok (plain, false) := by
  have h : parse_channel_transcript td
      = if channelsOf td = [] then
          (match td.results with
           | none => Except.error "KeyError: results"
           | some r =>
             match r.transcripts with
             | [] => Except.error "IndexError: transcripts"
             | plain :: _ => Except.ok (plain, false))
        else
          Except.ok (String.intercalate "\n"
            ((List.insertionSort segLE (collectSegments (channelsOf td))).map renderLine),
            true) := rfl
  rw [h, if_pos hch]

theorem parse_channels_nonempty (td : TranscriptData) (hne : channelsOf td ≠ []) :
    parse_channel_transcript td
      = .ok (String.intercalate "\n"
          ((List.insertionSort segLE (collectSegments (channelsOf td))).map renderLine),
          true) := by
  have h : parse_channel_transcript td
      = if channelsOf td = [] then
          (match td.results with
           | none => Except.error "KeyError: results"
           | some r =>
             match r.transcripts with
             | [] => Except.error "IndexError: transcripts"
             | plain :: _ => Except.ok (plain, false))
        else
          Except.ok (String.intercalate "\n"
            ((List.insertionSort segLE (collectSegments (channelsOf td))).map renderLine),
            true) := rfl
  rw [h, if_neg hne]

theorem intercalate_pair (a b : String) :
    String.intercalate " " [a, b] = a ++ " " ++ b := rfl

theorem ch_label_ne_roles (t : String) :
    ("Ch" ++ t) ≠ "AI Agent" ∧ ("Ch" ++ t) ≠ "Customer" := by
  constructor
  · intro h
    have hd := congrArg String.data h
    rw [String.data_append] at hd
    have hCh : "Ch".data = ['C', 'h'] := rfl
    have hA : "AI Agent".data = ['A', 'I', ' ', 'A', 'g', 'e', 'n', 't'] := rfl
    rw [hCh, hA] at hd
    injection hd with h1 _
    exact absurd h1 (by decide)
  · intro h
    have hd := congrArg String.data h
    rw [String.data_append] at hd
    have hCh : "Ch".data = ['C', 'h'] := rfl
    have hC : "Customer".data = ['C', 'u', 's', 't', 'o', 'm', 'e', 'r'] := rfl
    rw [hCh, hC] at hd
    injection hd with _ h2
    injection h2 with h3 _
    exact absurd h3 (by decide)

/-! The claims. -/

/-- C1: for every channel token stream (word tokens interleaved with
punctuation tokens), the Segmenter starts a new Utterance between
consecutive word tokens exactly when the silence gap is strictly greater
than 1.5 s.  Part 1: every item stream decomposes as leading punctuation
tokens followed by word tokens each trailed by its punctuation tokens, so
the remaining parts cover every stream.  Part 2: fusing trailing
punctuation onto a word preserves the word's timing, so the gaps used
below are the original word-token gaps.  Part 3 characterises
`segmentChannel` on an arbitrary stream as the rendering of `gapGroups`
over the fused words: the groups concatenate back to the fused stream,
are non-empty, have all internal gaps `≤ 1.5`, and have every boundary
gap `> 1.5` (a split happens at a boundary exactly when its gap exceeds
1.5).  Part 4: a gap strictly greater than 1.5 between consecutive word
tokens y and z (whatever punctuation surrounds them) splits exactly at
that boundary and yields at least two Utterances.  Part 5: a gap exactly
equal to 1.5 does not split. -/
theorem claim_C1_split_iff_gap :
    (∀ items : List Item, ∃ (p₀ : List String) (gs : List (Word × List String)),
        items = p₀.map Item.punctuation ++ itemsOfGroups gs)
    ∧ (∀ wp : Word × List String,
        (fuseWord wp).start = wp.1.start ∧ (fuseWord wp).stop = wp.1.stop)
    ∧ (∀ (label : String) (p₀ : List String) (gs : List (Word × List String)),
        segmentChannel label (p₀.map Item.punctuation ++ itemsOfGroups gs)
          = (gapGroups (3/2) (gs.map fuseWord)).map (renderGroup label)
        ∧ (gapGroups (3/2) (gs.map fuseWord)).flatten = gs.map fuseWord
        ∧ (∀ g ∈ gapGroups (3/2) (gs.map fuseWord), g ≠ [] ∧
            g.Chain' (fun a b => b.start - a.stop ≤ 3/2))
        ∧ (gapGroups (3/2) (gs.map fuseWord)).Chain'
            (fun g₁ g₂ => ∀ a ∈ g₁.getLast?, ∀ b ∈ g₂.head?, 3/2 < b.start - a.stop))
    ∧ (∀ (label : String) (p₀ : List String) (xs : List (Word × List String))
        (y : Word) (psy : List String) (z : Word) (psz : List String)
        (ys : List (Word × List String)),
        3/2 < z.start - y.stop →
        segmentChannel label
            (p₀.map Item.punctuation ++ itemsOfGroups (xs ++ (y, psy) :: (z, psz) :: ys))
          = segmentChannel label
              (p₀.map Item.punctuation ++ itemsOfGroups (xs ++ [(y, psy)]))
            ++ segmentChannel label (itemsOfGroups ((z, psz) :: ys))
        ∧ 2 ≤ (segmentChannel label
            (p₀.map Item.punctuation
              ++ itemsOfGroups (xs ++ (y, psy) :: (z, psz) :: ys))).length)
    ∧ (∀ (label : String) (p₀ : List String) (y : Word) (psy : List String)
        (z : Word) (psz : List String),
        z.start - y.stop = 3/2 →
        segmentChannel label
            (p₀.map Item.punctuation ++ itemsOfGroups [(y, psy), (z, psz)])
          = [(y.start,
              (y.content ++ concatAll psy) ++ " " ++ (z.content ++ concatAll psz),
              label)]) := by
  refine ⟨items_decompose, fun wp => ⟨rfl, rfl⟩, ?_, ?_, ?_⟩
  · intro label p₀ gs
    exact ⟨segmentChannel_mixed label p₀ gs, gapGroups_join (3/2) _,
      fun g hg => ⟨gapGroups_ne_nil (3/2) _ g hg, gapGroups_chain (3/2) _ g hg⟩,
      gapGroups_boundaries (3/2) _⟩
  · intro label p₀ xs y psy z psz ys hgap
    have hm1 : (xs ++ (y, psy) :: (z, psz) :: ys).map fuseWord
        = xs.map fuseWord
          ++ fuseWord (y, psy) :: fuseWord (z, psz) :: ys.map fuseWord := by
      simp
    have hm2 : (xs ++ [(y, psy)]).map fuseWord
        = xs.map fuseWord ++ [fuseWord (y, psy)] := by
      simp
    have hm3 : ((z, psz) :: ys).map fuseWord
        = fuseWord (z, psz) :: ys.map fuseWord := rfl
    have hgap' : (3/2 : ℚ) < (fuseWord (z, psz)).start - (fuseWord (y, psy)).stop := hgap
    have hsplit := gapGroups_split (3/2) (xs.map fuseWord) (fuseWord (y, psy))
      (fuseWord (z, psz)) (ys.map fuseWord) hgap'
    have hz := segmentChannel_mixed label [] ((z, psz) :: ys)
    rw [List.map_nil, List.nil_append] at hz
    have heq : segmentChannel label
          (p₀.map Item.punctuation ++ itemsOfGroups (xs ++ (y, psy) :: (z, psz) :: ys))
        = segmentChannel label
            (p₀.map Item.punctuation ++ itemsOfGroups (xs ++ [(y, psy)]))
          ++ segmentChannel label (itemsOfGroups ((z, psz) :: ys)) := by
      rw [segmentChannel_mixed, segmentChannel_mixed, hz, hm1, hm2, hm3, hsplit,
        List.map_append]
    refine ⟨heq, ?_⟩
    rw [heq, List.length_append]
    obtain ⟨x1, t1, he⟩ := List.exists_cons_of_ne_nil
      (show xs.map fuseWord ++ [fuseWord (y, psy)] ≠ [] by simp)
    have h1 : 0 < (segmentChannel label
        (p₀.map Item.punctuation ++ itemsOfGroups (xs ++ [(y, psy)]))).length := by
      rw [segmentChannel_mixed, hm2, he, List.length_map]
      exact List.length_pos.mpr (gapGroups_cons_ne_nil (3/2) x1 t1)
    have h2 : 0 < (segmentChannel label (itemsOfGroups ((z, psz) :: ys))).length := by
      rw [hz, hm3, List.length_map]
      exact List.length_pos.mpr
        (gapGroups_cons_ne_nil (3/2) (fuseWord (z, psz)) (ys.map fuseWord))
    omega
  · intro label p₀ y psy z psz hgap
    have hchain : (fuseWord (y, psy) :: [fuseWord (z, psz)]).Chain'
        (fun a b => b.start - a.stop ≤ 3/2) :=
      List.chain'_pair.mpr (le_of_eq hgap)
    have h := segmentChannel_mixed label p₀ [(y, psy), (z, psz)]
    have hm : ([(y, psy), (z, psz)].map fuseWord)
        = [fuseWord (y, psy), fuseWord (z, psz)] := rfl
    rw [hm, gapGroups_single (3/2) (fuseWord (y, psy)) [fuseWord (z, psz)] hchain] at h
    rw [h]
    rfl

/-- Witness for C1: the stream word a 0.0-1.0, punctuation ",",
word b 3.0-4.0 has a 2.0 s word gap across the punctuation and splits
into two utterances; with b starting at 2.5 the gap is exactly 1.5 and
one utterance "a, b." results. -/
theorem claim_C1_split_iff_gap_witness :
    ((3/2 : ℚ) < (Word.mk 3 4 "b").start - (Word.mk 0 1 "a").stop
      ∧ (segmentChannel "L" (([] : List String).map Item.punctuation
            ++ itemsOfGroups
              ([] ++ (Word.mk 0 1 "a", [","]) :: (Word.mk 3 4 "b", ([] : List String)) :: []))
          = segmentChannel "L" (([] : List String).map Item.punctuation
              ++ itemsOfGroups ([] ++ [(Word.mk 0 1 "a", [","])]))
            ++ segmentChannel "L"
              (itemsOfGroups ((Word.mk 3 4 "b", ([] : List String)) :: []))
        ∧ 2 ≤ (segmentChannel "L" (([] : List String).map Item.punctuation
            ++ itemsOfGroups
              ([] ++ (Word.mk 0 1 "a", [","])
                :: (Word.mk 3 4 "b", ([] : List String)) :: []))).length))
    ∧ ((Word.mk (5/2) 3 "b").start - (Word.mk 0 1 "a").stop = 3/2
      ∧ segmentChannel "L" (([] : List String).map Item.punctuation
            ++ itemsOfGroups [(Word.mk 0 1 "a", [","]), (Word.mk (5/2) 3 "b", ["."])])
          = [((Word.mk 0 1 "a").start,
              ((Word.mk 0 1 "a").content ++ concatAll [","]) ++ " "
                ++ ((Word.mk (5/2) 3 "b").content ++ concatAll ["."]),
              "L")]) :=
  ⟨⟨by decide, claim_C1_split_iff_gap.2.2.2.1 "L" [] [] (Word.mk 0 1 "a") [","]
      (Word.mk 3 4 "b") [] [] (by decide)⟩,
   ⟨by decide, claim_C1_split_iff_gap.2.2.2.2 "L" [] (Word.mk 0 1 "a") [","]
      (Word.mk (5/2) 3 "b") ["."] (by decide)⟩⟩

/-- C2: a non-empty all-word stream whose consecutive gaps are all below
1.5 s yields exactly one Utterance: all words joined by single spaces in
input order, with the first word's start time. -/
theorem claim_C2_single_utterance (label : String) (w : Word) (ws : List Word)
    (hgaps : (w :: ws).Chain' (fun a b => b.start - a.stop < 3/2)) :
    segmentChannel label ((w :: ws).map wordItem)
      = [(w.start, String.intercalate " " ((w :: ws).map Word.content), label)] := by
  rw [segmentChannel_words,
    gapGroups_single (3/2) w ws (hgaps.imp fun _ _ h => le_of_lt h)]
  rfl

/-- Witness for C2: words a = 0.0-1.0 and b = 2.0-3.0 with gap 1.0 below
threshold form the single utterance "a b". -/
theorem claim_C2_single_utterance_witness :
    ((Word.mk 0 1 "a" :: [Word.mk 2 3 "b"]).Chain'
        (fun a b => b.start - a.stop < 3/2))
    ∧ segmentChannel "L" ((Word.mk 0 1 "a" :: [Word.mk 2 3 "b"]).map wordItem)
        = [((Word.mk 0 1 "a").start,
            String.intercalate " " ((Word.mk 0 1 "a" :: [Word.mk 2 3 "b"]).map Word.content),
            "L")] :=
  ⟨List.chain'_pair.mpr (by decide), claim_C2_single_utterance "L" (Word.mk 0 1 "a")
    [Word.mk 2 3 "b"] (List.chain'_pair.mpr (by decide))⟩

/-- C3: a punctuation token arriving while the buffer is non-empty is
appended directly to the last buffered word, with no inserted space; the
stream word "hi" 0.0-0.3 then punctuation "." yields the single
utterance "hi.". -/
theorem claim_C3_punct_fuses :
    (∀ (label : String) (st : SegState) (p : String), st.buf ≠ [] →
        segStep label st (.punctuation p) = { st with buf := appendToLast p st.buf })
    ∧ (∀ (p : String) (bs : List BufEntry) (b : BufEntry),
        appendToLast p (bs ++ [b]) = bs ++ [⟨b.start, b.word ++ p⟩])
    ∧ segmentChannel "L" [.pronunciation 0 (3/10) "hi", .punctuation "."]
        = [((0 : ℚ), "hi.", "L")] := by
  refine ⟨?_, appendToLast_concat, by decide⟩
  intro label st p h
  simp [segStep, h]

/-- Witness for C3: applying the buffer-fusion law at a concrete
one-entry buffer. -/
theorem claim_C3_punct_fuses_witness :
    (SegState.mk [] [BufEntry.mk 0 "hi"] (3/10)).buf ≠ []
    ∧ segStep "L" (SegState.mk [] [BufEntry.mk 0 "hi"] (3/10)) (.punctuation "!")
        = { SegState.mk [] [BufEntry.mk 0 "hi"] (3/10) with
            buf := appendToLast "!" [BufEntry.mk 0 "hi"] } :=
  ⟨by decide, claim_C3_punct_fuses.1 "L" (SegState.mk [] [BufEntry.mk 0 "hi"] (3/10)) "!"
    (by decide)⟩

/-- C4: a punctuation token arriving while the buffer is empty is
silently discarded; a channel holding only punctuation tokens yields the
empty utterance list. -/
theorem claim_C4_leading_punct_dropped :
    (∀ (label : String) (st : SegState) (p : String), st.buf = [] →
        segStep label st (.punctuation p) = st)
    ∧ (∀ (label : String) (ps : List String),
        segmentChannel label (ps.map Item.punctuation) = [])
    ∧ segmentChannel "L" [.punctuation ","] = [] := by
  refine ⟨?_, ?_, by decide⟩
  · intro label st p h
    simp [segStep, h]
  · intro label ps
    rw [segmentChannel, punctFold_empty label ps _ rfl]
    rfl

/-- Witness for C4: a comma arriving at the initial (empty-buffer) state
leaves the state unchanged. -/
theorem claim_C4_leading_punct_dropped_witness :
    (SegState.mk [] [] 0).buf = []
    ∧ segStep "L" (SegState.mk [] [] 0) (.punctuation ",") = SegState.mk [] [] 0 :=
  ⟨rfl, claim_C4_leading_punct_dropped.1 "L" (SegState.mk [] [] 0) "," rfl⟩

/-- C5: with an empty channel set the Assembler returns the engine's
plain transcript string verbatim, paired with `has_channel_data = false`. -/
theorem claim_C5_fallback_plain (td : TranscriptData) (r : Results)
    (plain : String) (rest : List String)
    (hch : channelsOf td = []) (hres : td.results = some r)
    (htr : r.transcripts = plain :: rest) :
    parse_channel_transcript td = .ok (plain, false) := by
  rw [parse_channels_empty td hch, hres]
  show (match r.transcripts with
        | [] => Except.error "IndexError: transcripts"
        | p :: _ => Except.ok (p, false)) = Except.ok (plain, false)
  rw [htr]

/-- Witness for C5: a result with no channel data and the plain
transcript "hello world". -/
theorem claim_C5_fallback_plain_witness :
    channelsOf (TranscriptData.mk (some (Results.mk none ["hello world"]))) = []
    ∧ (TranscriptData.mk (some (Results.mk none ["hello world"]))).results
        = some (Results.mk none ["hello world"])
    ∧ (Results.mk none ["hello world"]).transcripts = "hello world" :: []
    ∧ parse_channel_transcript (TranscriptData.mk (some (Results.mk none ["hello world"])))
        = .ok ("hello world", false) :=
  ⟨rfl, rfl, rfl,
   claim_C5_fallback_plain (TranscriptData.mk (some (Results.mk none ["hello world"])))
     (Results.mk none ["hello world"]) "hello world" [] rfl rfl rfl⟩

/-- The two-channel input of the time-ordering scenario: channel 0 has an
utterance starting at 5.0 s, channel 1 one starting at 2.0 s. -/
def exC6td : TranscriptData :=
  ⟨some ⟨some [⟨0, [.pronunciation 5 (26/5) "five"]⟩,
               ⟨1, [.pronunciation 2 (11/5) "two"]⟩], []⟩⟩

/-- C6: with a non-empty channel set the Assembler returns, with
`has_channel_data = true`, the newline-join of lines rendered as
`speaker ++ ": " ++ text` from a list that is a permutation of all
channels' tagged utterances, sorted by start time, and stable (any pair
in key order keeps its relative input order, so ties keep input order);
in particular the channel-1 utterance starting at 2.0 s is rendered
before the channel-0 utterance starting at 5.0 s. -/
theorem claim_C6_merge_sorted :
    (∀ td : TranscriptData, channelsOf td ≠ [] →
        ∃ sorted : List (ℚ × String × String),
          sorted.Perm (collectSegments (channelsOf td))
          ∧ List.Sorted segLE sorted
          ∧ (∀ a b : ℚ × String × String, segLE a b →
              List.Sublist [a, b] (collectSegments (channelsOf td)) →
              List.Sublist [a, b] sorted)
          ∧ parse_channel_transcript td
              = .ok (String.intercalate "\n" (sorted.map renderLine), true))
    ∧ parse_channel_transcript exC6td = .ok ("Customer: two\nAI Agent: five", true) := by
  constructor
  · intro td hne
    exact ⟨List.insertionSort segLE (collectSegments (channelsOf td)),
      List.perm_insertionSort segLE _, List.sorted_insertionSort segLE _,
      fun a b hab hsub => List.pair_sublist_insertionSort hab hsub,
      parse_channels_nonempty td hne⟩
  · decide

/-- Witness for C6: the merge law applied to the concrete two-channel
input. -/
theorem claim_C6_merge_sorted_witness :
    channelsOf exC6td ≠ []
    ∧ (∃ sorted : List (ℚ × String × String),
        sorted.Perm (collectSegments (channelsOf exC6td))
        ∧ List.Sorted segLE sorted
        ∧ (∀ a b : ℚ × String × String, segLE a b →
            List.Sublist [a, b] (collectSegments (channelsOf exC6td)) →
            List.Sublist [a, b] sorted)
        ∧ parse_channel_transcript exC6td
            = .ok (String.intercalate "\n" (sorted.map renderLine), true)) :=
  ⟨by decide, claim_C6_merge_sorted.1 exC6td (by decide)⟩

/-- Counterexample to C7 as stated: for channel index 2 the code's label
is "Ch2", not "Channel 2". -/
theorem claim_C7_counterexample :
    channelLabelFor 2 = "Ch2" ∧ channelLabelFor 2 ≠ "Channel 2" := by
  decide

/-- A one-channel input whose channel index, 2, is neither 0 nor 1. -/
def exC7td : TranscriptData :=
  ⟨some ⟨some [⟨2, [.pronunciation 0 1 "hey"]⟩], []⟩⟩

/-- C7, amended: an index other than 0 and 1 resolves to the generic
label "Ch" followed by the index (rather than "Channel " followed by the
index), which differs from both defined roles, and processing a channel
set containing such a channel still succeeds. -/
theorem claim_C7_amended :
    channelLabelFor 0 = "AI Agent"
    ∧ channelLabelFor 1 = "Customer"
    ∧ (∀ i : Int, i ≠ 0 → i ≠ 1 →
        channelLabelFor i = "Ch" ++ toString i
        ∧ channelLabelFor i ≠ "AI Agent" ∧ channelLabelFor i ≠ "Customer")
    ∧ (∀ td : TranscriptData, channelsOf td ≠ [] →
        ∃ s, parse_channel_transcript td = .ok (s, true)) := by
  refine ⟨by decide, by decide, ?_, ?_⟩
  · intro i h0 h1
    have hl : channelLabelFor i = "Ch" ++ toString i := by
      simp only [channelLabelFor, CHANNEL_LABELS, List.lookup]
      rw [show (i == (0 : Int)) = false from beq_eq_false_iff_ne.mpr h0,
        show (i == (1 : Int)) = false from beq_eq_false_iff_ne.mpr h1]
      rfl
    exact ⟨hl, hl ▸ (ch_label_ne_roles (toString i)).1,
      hl ▸ (ch_label_ne_roles (toString i)).2⟩
  · intro td hne
    exact ⟨_, parse_channels_nonempty td hne⟩

/-- Witness for C7's amended claim, at index 2 and the concrete
one-channel input with that index. -/
theorem claim_C7_amended_witness :
    ((2 : Int) ≠ 0 ∧ (2 : Int) ≠ 1
      ∧ channelLabelFor 2 = "Ch" ++ toString (2 : Int)
      ∧ channelLabelFor 2 ≠ "AI Agent" ∧ channelLabelFor 2 ≠ "Customer")
    ∧ (channelsOf exC7td ≠ []
      ∧ ∃ s, parse_channel_transcript exC7td = .ok (s, true)) :=
  ⟨⟨by decide, by decide, claim_C7_amended.2.2.1 2 (by decide) (by decide)⟩,
   ⟨by decide, claim_C7_amended.2.2.2 exC7td (by decide)⟩⟩

/-- The end-to-end scenario's input: channel 0 = word "yes" 0.0-0.2;
channel 1 = words "hello" 1.0-1.3 and "there" 1.4-1.7 then
punctuation ".". -/
def exC8td : TranscriptData :=
  ⟨some ⟨some [⟨0, [.pronunciation 0 (1/5) "yes"]⟩,
               ⟨1, [.pronunciation 1 (13/10) "hello",
                    .pronunciation (7/5) (17/10) "there",
                    .punctuation "."]⟩],
        ["yes hello there."]⟩⟩

/-- C8: the end-to-end scenario renders exactly the two lines
"AI Agent: yes" and "Customer: hello there.", channel 0 first, with
`has_channel_data = true`. -/
theorem claim_C8_end_to_end :
    parse_channel_transcript exC8td
      = .ok ("AI Agent: yes\nCustomer: hello there.", true) := by
  decide

/-- C9: with no channel data and no usable `results.transcripts` entry,
the Assembler returns a data-shape error (modelling the Python
`KeyError` and `IndexError` that propagate to the caller). -/
theorem claim_C9_missing_transcripts_error :
    (∀ (td : TranscriptData) (r : Results), channelsOf td = [] →
        td.results = some r → r.transcripts = [] →
        ∃ e, parse_channel_transcript td = .error e)
    ∧ (∀ td : TranscriptData, td.results = none →
        ∃ e, parse_channel_transcript td = .error e) := by
  constructor
  · intro td r hch hres htr
    refine ⟨"IndexError: transcripts", ?_⟩
    rw [parse_channels_empty td hch, hres]
    show (match r.transcripts with
          | [] => Except.error "IndexError: transcripts"
          | p :: _ => Except.ok (p, false)) = Except.error "IndexError: transcripts"
    rw [htr]
  · intro td hres
    refine ⟨"KeyError: results", ?_⟩
    have hch : channelsOf td = [] := by rw [channelsOf, hres]
    rw [parse_channels_empty td hch, hres]

/-- Witness for C9: a result object with channel data and transcripts
both absent. -/
theorem claim_C9_missing_transcripts_error_witness :
    channelsOf (TranscriptData.mk (some (Results.mk none []))) = []
    ∧ (TranscriptData.mk (some (Results.mk none []))).results = some (Results.mk none [])
    ∧ (Results.mk none []).transcripts = []
    ∧ ∃ e, parse_channel_transcript (TranscriptData.mk (some (Results.mk none [])))
        = .error e :=
  ⟨rfl, rfl, rfl,
   claim_C9_missing_transcripts_error.1 (TranscriptData.mk (some (Results.mk none [])))
     (Results.mk none []) rfl rfl rfl⟩

/-- C10: the first per-channel loop (lines 35-40), which accumulates
`current_words`, has no effect on the function's value: the parser equals
the variant with that loop removed, on every input. -/
theorem claim_C10_first_loop_dead (td : TranscriptData) :
    parse_channel_transcript td = parse_channel_transcript_noFirstLoop td := rfl

end VoiceAnalysis
